import Mathlib

/-!
Shallow embedding of the poker hand evaluator repository `holdem_rs`
(`src/cards.rs`, `src/hands.rs`, `src/hold_em.rs`) and proofs about its
specification.  Rust machine integers that occur here are tiny (`u8`
discriminants, `usize` lengths bounded by 52), so they are modelled as `Nat`.
Rust code that can panic (array indexing, `expect`, `panic!`) is modelled by
`Option`-returning functions, with `none` standing for the panic.
-/

/-- Rank of a card as declared in `cards.rs`: 13 variants in declaration
order `Two ..= Ace`.  The derived Rust `Ord` compares by declaration order,
i.e. by discriminant. -/
inductive Rank where
  | Two | Three | Four | Five | Six | Seven | Eight | Nine | Ten
  | Jack | Queen | King | Ace
deriving DecidableEq, Fintype

/-- Discriminant of a `Rank`: the value of `*self as u8` in the source. -/
def rankVal : Rank → Nat
  | .Two => 0
  | .Three => 1
  | .Four => 2
  | .Five => 3
  | .Six => 4
  | .Seven => 5
  | .Eight => 6
  | .Nine => 7
  | .Ten => 8
  | .Jack => 9
  | .Queen => 10
  | .King => 11
  | .Ace => 12

/-- Partial inverse of `rankVal`, modelling `FromPrimitive::from_u8` for
`Rank` (derived via `num_derive::FromPrimitive`). -/
def rankFromNat : Nat → Option Rank
  | 0 => some .Two
  | 1 => some .Three
  | 2 => some .Four
  | 3 => some .Five
  | 4 => some .Six
  | 5 => some .Seven
  | 6 => some .Eight
  | 7 => some .Nine
  | 8 => some .Ten
  | 9 => some .Jack
  | 10 => some .Queen
  | 11 => some .King
  | 12 => some .Ace
  | _ => none

/-- Cyclic successor on ranks, `Rank::successor` in `cards.rs`:
`FromPrimitive::from_u8(*self as u8 + 1).unwrap_or(Rank::Two)`. -/
def Rank.successor (r : Rank) : Rank :=
  (rankFromNat (rankVal r + 1)).getD Rank.Two

/-- Suit of a card as declared in `cards.rs`: 4 variants in declaration
order.  The derived Rust `Ord` compares by declaration order. -/
inductive Suit where
  | Hearts | Clubs | Spades | Diamonds
deriving DecidableEq, Fintype

/-- Discriminant of a `Suit`. -/
def suitVal : Suit → Nat
  | .Hearts => 0
  | .Clubs => 1
  | .Spades => 2
  | .Diamonds => 3

/-- A card, `struct Card { rank, suit }` in `cards.rs`.  The derived Rust
`Ord` is lexicographic on `(rank, suit)` in field declaration order. -/
structure Card where
  rank : Rank
  suit : Suit
deriving DecidableEq, Fintype

/-- Comparison of natural numbers as a three-way `Ordering`, the model of
Rust `Ord::cmp` on integer discriminants. -/
def natCmp (a b : Nat) : Ordering :=
  if a < b then Ordering.lt else if a = b then Ordering.eq else Ordering.gt

theorem natCmp_eq_lt_iff {a b : Nat} : natCmp a b = Ordering.lt ↔ a < b := by
  unfold natCmp
  split_ifs <;> simp <;> omega

theorem natCmp_eq_eq_iff {a b : Nat} : natCmp a b = Ordering.eq ↔ a = b := by
  unfold natCmp
  split_ifs <;> simp <;> omega

theorem natCmp_eq_gt_iff {a b : Nat} : natCmp a b = Ordering.gt ↔ b < a := by
  unfold natCmp
  split_ifs <;> simp <;> omega

theorem natCmp_self (a : Nat) : natCmp a a = Ordering.eq := by
  unfold natCmp
  split_ifs <;> simp_all

theorem natCmp_ne_lt_iff {a b : Nat} : natCmp a b ≠ Ordering.lt ↔ b ≤ a := by
  rw [Ne, natCmp_eq_lt_iff]
  omega

theorem natCmp_shift {m p q : Nat} : natCmp (m + p) (m + q) = natCmp p q := by
  unfold natCmp
  split_ifs <;> first | rfl | omega

theorem natCmp_succ (a b : Nat) : natCmp (a + 1) (b + 1) = natCmp a b := by
  unfold natCmp
  split_ifs <;> first | rfl | omega

/-- Lexicographic two-digit comparison agrees with comparison of the packed
base-`B` value, provided both low digits are below `B`. -/
theorem natCmp_mul_add {B x y p q : Nat} (hp : p < B) (hq : q < B) :
    natCmp (x * B + p) (y * B + q) = (natCmp x y).then (natCmp p q) := by
  rcases Nat.lt_trichotomy x y with h | h | h
  · have hxy : x * B + p < y * B + q := by
      have h1 : (x + 1) * B ≤ y * B := Nat.mul_le_mul_right B h
      have h2 : (x + 1) * B = x * B + B := by ring
      omega
    rw [natCmp_eq_lt_iff.mpr hxy, natCmp_eq_lt_iff.mpr h]
    rfl
  · subst h
    rw [natCmp_shift, natCmp_self]
    rfl
  · have hxy : y * B + q < x * B + p := by
      have h1 : (y + 1) * B ≤ x * B := Nat.mul_le_mul_right B h
      have h2 : (y + 1) * B = y * B + B := by ring
      omega
    rw [natCmp_eq_gt_iff.mpr hxy, natCmp_eq_gt_iff.mpr h]
    rfl

/-- Derived `Ord` on `Rank`: discriminant comparison. -/
def rankCmp (a b : Rank) : Ordering := natCmp (rankVal a) (rankVal b)

/-- Derived `Ord` on `Suit`: discriminant comparison. -/
def suitCmp (a b : Suit) : Ordering := natCmp (suitVal a) (suitVal b)

/-- Derived `Ord` on `Card`: lexicographic on `(rank, suit)`. -/
def cardCmp (a b : Card) : Ordering :=
  (rankCmp a.rank b.rank).then (suitCmp a.suit b.suit)

/-- Injective numeric key realising the derived `Card` order. -/
def cardKey (c : Card) : Nat := rankVal c.rank * 4 + suitVal c.suit

theorem rankVal_lt (r : Rank) : rankVal r < 13 := by
  cases r <;> decide

theorem suitVal_lt (s : Suit) : suitVal s < 4 := by
  cases s <;> decide

theorem rankVal_inj : ∀ {a b : Rank}, rankVal a = rankVal b → a = b := by
  decide

theorem cardKey_lt (c : Card) : cardKey c < 52 := by
  have h1 := rankVal_lt c.rank
  have h2 := suitVal_lt c.suit
  unfold cardKey
  omega

theorem cardKey_inj : ∀ {a b : Card}, cardKey a = cardKey b → a = b := by
  decide

theorem cardCmp_key (a b : Card) : cardCmp a b = natCmp (cardKey a) (cardKey b) := by
  unfold cardCmp cardKey
  rw [natCmp_mul_add (suitVal_lt a.suit) (suitVal_lt b.suit)]
  rfl

/-- Hand classification `HandType` in `hands.rs`, declared weakest to
strongest; the derived Rust `Ord` compares the variant (declaration order)
first, then the embedded ranks of a shared variant lexicographically. -/
inductive HandType where
  | HighCard
  | Pair (r : Rank)
  | TwoPair (hi lo : Rank)
  | ThreeOfAKind (r : Rank)
  | Straight (high : Rank)
  | Flush
  | FullHouse (trip pr : Rank)
  | FourOfAKind (r : Rank)
  | StraightFlush (high : Rank)
deriving DecidableEq, Fintype

/-- Variant discriminant of a `HandType`. -/
def htTag : HandType → Nat
  | .HighCard => 0
  | .Pair _ => 1
  | .TwoPair _ _ => 2
  | .ThreeOfAKind _ => 3
  | .Straight _ => 4
  | .Flush => 5
  | .FullHouse _ _ => 6
  | .FourOfAKind _ => 7
  | .StraightFlush _ => 8

/-- Field-wise lexicographic comparison of two `HandType` values of the same
variant (the value is irrelevant when the variants differ). -/
def htPayloadCmp : HandType → HandType → Ordering
  | .Pair a, .Pair b => rankCmp a b
  | .TwoPair a1 a2, .TwoPair b1 b2 => (rankCmp a1 b1).then (rankCmp a2 b2)
  | .ThreeOfAKind a, .ThreeOfAKind b => rankCmp a b
  | .Straight a, .Straight b => rankCmp a b
  | .FullHouse a1 a2, .FullHouse b1 b2 => (rankCmp a1 b1).then (rankCmp a2 b2)
  | .FourOfAKind a, .FourOfAKind b => rankCmp a b
  | .StraightFlush a, .StraightFlush b => rankCmp a b
  | _, _ => Ordering.eq

/-- Derived `Ord` on `HandType`: variant discriminant first, then the
embedded ranks of a shared variant. -/
def htCmp (a b : HandType) : Ordering :=
  (natCmp (htTag a) (htTag b)).then (htPayloadCmp a b)

/-- Numeric encoding of the embedded ranks of a `HandType` (base 13,
bounded by 169). -/
def htPayload : HandType → Nat
  | .HighCard => 0
  | .Pair r => rankVal r
  | .TwoPair a b => rankVal a * 13 + rankVal b
  | .ThreeOfAKind r => rankVal r
  | .Straight r => rankVal r
  | .Flush => 0
  | .FullHouse a b => rankVal a * 13 + rankVal b
  | .FourOfAKind r => rankVal r
  | .StraightFlush r => rankVal r

/-- Injective numeric key realising the derived `HandType` order. -/
def htKey (t : HandType) : Nat := htTag t * 169 + htPayload t

theorem htPayload_lt (t : HandType) : htPayload t < 169 := by
  cases t <;> simp [htPayload] <;>
    first
    | omega
    | (rename_i r; have := rankVal_lt r; omega)
    | (rename_i a b; have := rankVal_lt a; have := rankVal_lt b; omega)

theorem rankPairCmp_key (a1 a2 b1 b2 : Rank) :
    (natCmp (rankVal a1) (rankVal b1)).then (natCmp (rankVal a2) (rankVal b2)) =
      natCmp (rankVal a1 * 13 + rankVal a2) (rankVal b1 * 13 + rankVal b2) := by
  rw [natCmp_mul_add (rankVal_lt a2) (rankVal_lt b2)]

theorem htCmp_key (a b : HandType) : htCmp a b = natCmp (htKey a) (htKey b) := by
  unfold htKey
  rw [natCmp_mul_add (htPayload_lt a) (htPayload_lt b)]
  unfold htCmp
  rcases h : natCmp (htTag a) (htTag b) with _ | _ | _
  · rfl
  · have ht : htTag a = htTag b := natCmp_eq_eq_iff.mp h
    show htPayloadCmp a b = natCmp (htPayload a) (htPayload b)
    cases a <;> cases b <;>
      simp_all [htTag, htPayloadCmp, htPayload, rankCmp, rankPairCmp_key, natCmp_self]
  · rfl

theorem htKey_inj : ∀ {a b : HandType}, htKey a = htKey b → a = b := by
  intro a b h
  have ha := htPayload_lt a
  have hb := htPayload_lt b
  have htag : htTag a = htTag b := by
    unfold htKey at h
    omega
  have hpay : htPayload a = htPayload b := by
    unfold htKey at h
    omega
  cases a <;> cases b <;> simp_all [htTag, htPayload] <;>
    first
    | (rename_i r s; exact rankVal_inj hpay)
    | (rename_i a1 a2 b1 b2
       have h1 := rankVal_lt a1
       have h2 := rankVal_lt a2
       have h3 := rankVal_lt b1
       have h4 := rankVal_lt b2
       constructor
       · exact rankVal_inj (by omega)
       · exact rankVal_inj (by omega))

/-- Descending order on cards used by `Hand::from`
(`cards.sort_by(|a, b| b.cmp(a))`). -/
def cardDesc (a b : Card) : Prop := cardKey b ≤ cardKey a

instance : DecidableRel cardDesc := fun _ _ => Nat.decLe _ _

instance : IsTotal Card cardDesc := ⟨fun a b => Nat.le_total (cardKey b) (cardKey a)⟩

instance : IsTrans Card cardDesc := ⟨fun _ _ _ h1 h2 => Nat.le_trans h2 h1⟩

instance : IsAntisymm Card cardDesc := ⟨fun _ _ h1 h2 => cardKey_inj (Nat.le_antisymm h2 h1)⟩

/-- Hand construction `Hand::from`: sort the cards descending.  A hand is
modelled as its list of cards (the source stores an array of exactly 5; the
length is carried as a hypothesis where it matters). -/
def mkHand (cs : List Card) : List Card := List.insertionSort cardDesc cs

/-- Hand::ranks: the list of the cards' ranks, in hand (stored) order. -/
def ranksOf (cs : List Card) : List Rank := cs.map Card.rank

/-- Hand::is_flush: every card has the suit of the first card. -/
def is_flush (cs : List Card) : Bool :=
  match cs with
  | [] => true
  | c :: _ => cs.all (fun x => x.suit == c.suit)

/-- Chain test of `extract_straight`: every adjacent pair `(cur, nxt)` of the
rank list satisfies `*nxt != Rank::Ace && nxt.successor() == *cur`. -/
def straightChain (rs : List Rank) : Bool :=
  (rs.zip rs.tail).all (fun p => (p.2 != Rank.Ace) && (p.2.successor == p.1))

/-- Hand::extract_straight: the wheel pattern `[A,5,4,3,2]` yields `Five`,
otherwise a full descending chain (never through an Ace) yields the first
rank.  `head?` agrees with the source's `ranks[0]` whenever the hand is
nonempty, which every real `Hand` (5 cards) is. -/
def extract_straight (cs : List Card) : Option Rank :=
  if ranksOf cs = [Rank.Ace, Rank.Five, Rank.Four, Rank.Three, Rank.Two] then
    some Rank.Five
  else if straightChain (ranksOf cs) then (ranksOf cs).head?
  else none

/-- Run-length encoding of maximal runs of equal adjacent ranks, modelling
itertools `dedup_with_count` (each run becomes a `(count, rank)` pair). -/
def dedupWithCount : List Rank → List (Nat × Rank)
  | [] => []
  | r :: rs =>
    match dedupWithCount rs with
    | [] => [(1, r)]
    | (c, s) :: rest =>
      if r = s then (c + 1, s) :: rest else (1, r) :: (c, s) :: rest

/-- Injective numeric key realising the derived lexicographic order on
`(count, rank)` groups (`(usize, Rank)` in the source). -/
def groupKey (g : Nat × Rank) : Nat := g.1 * 13 + rankVal g.2

/-- Descending order on groups, modelling `groups.sort_by(|a, b| b.cmp(a))`. -/
def groupDesc (a b : Nat × Rank) : Prop := groupKey b ≤ groupKey a

instance : DecidableRel groupDesc := fun _ _ => Nat.decLe _ _

instance : IsTotal (Nat × Rank) groupDesc :=
  ⟨fun a b => Nat.le_total (groupKey b) (groupKey a)⟩

instance : IsTrans (Nat × Rank) groupDesc := ⟨fun _ _ _ h1 h2 => Nat.le_trans h2 h1⟩

theorem groupKey_inj : ∀ {a b : Nat × Rank}, groupKey a = groupKey b → a = b := by
  intro a b h
  rcases a with ⟨c1, r1⟩
  rcases b with ⟨c2, r2⟩
  have h1 := rankVal_lt r1
  have h2 := rankVal_lt r2
  unfold groupKey at h
  simp only at h
  have hc : c1 = c2 := by omega
  have hr : rankVal r1 = rankVal r2 := by omega
  exact Prod.ext hc (rankVal_inj hr)

instance : IsAntisymm (Nat × Rank) groupDesc :=
  ⟨fun _ _ h1 h2 => groupKey_inj (Nat.le_antisymm h2 h1)⟩

/-- Sorted rank groups of a hand, as computed inside `Hand::hand_type`:
run-length encode the hand's ranks, then sort the groups descending. -/
def groupsOf (cs : List Card) : List (Nat × Rank) :=
  List.insertionSort groupDesc (dedupWithCount (ranksOf cs))

/-- Classification match of `hand_type` on the sorted groups.  `none` models
the `groups[1]` out-of-bounds panic that would occur if a guard were
evaluated with a single group present (and `groups[0]` on no groups). -/
def classify : List (Nat × Rank) → Option HandType
  | [] => none
  | (c0, r0) :: rest =>
    if c0 = 2 then
      match rest with
      | [] => none
      | (c1, r1) :: _ =>
        some (if c1 = 2 then HandType.TwoPair r0 r1 else HandType.Pair r0)
    else if c0 = 3 then
      match rest with
      | [] => none
      | (c1, r1) :: _ =>
        some (if c1 = 2 then HandType.FullHouse r0 r1 else HandType.ThreeOfAKind r0)
    else if c0 = 4 then some (HandType.FourOfAKind r0)
    else some HandType.HighCard

/-- Hand::hand_type. -/
def hand_type (cs : List Card) : Option HandType :=
  match extract_straight cs with
  | some s =>
    some (if is_flush cs then HandType.StraightFlush s else HandType.Straight s)
  | none => if is_flush cs then some HandType.Flush else classify (groupsOf cs)

/-- Total wrapper of `hand_type`; the default branch is never reached on
5-card hands (`hand_type_isSome` below). -/
def hand_typeD (cs : List Card) : HandType := (hand_type cs).getD HandType.HighCard

/-- Lexicographic comparison of rank sequences, modelling the derived `Ord`
of `[Rank; 5]` (both sides always have equal length where this is used). -/
def rankListCmp : List Rank → List Rank → Ordering
  | [], [] => Ordering.eq
  | [], _ :: _ => Ordering.lt
  | _ :: _, [] => Ordering.gt
  | a :: l1, b :: l2 => (rankCmp a b).then (rankListCmp l1 l2)

/-- impl Ord for Hand: compare the hand types; on a tie compare the rank
sequences. -/
def handCmp (h1 h2 : List Card) : Ordering :=
  match htCmp (hand_typeD h1) (hand_typeD h2) with
  | Ordering.eq => rankListCmp (ranksOf h1) (ranksOf h2)
  | o => o

/-- impl PartialEq for Hand: `self.cmp(other) == Ordering::Equal`. -/
def handEq (h1 h2 : List Card) : Bool := handCmp h1 h2 == Ordering.eq

/-- Base-13 numeric key of a rank sequence, realising `rankListCmp` on
equal-length sequences. -/
def rlKey : List Rank → Nat
  | [] => 0
  | r :: rs => rankVal r * 13 ^ rs.length + rlKey rs

theorem rlKey_lt : ∀ l : List Rank, rlKey l < 13 ^ l.length
  | [] => by simp [rlKey]
  | r :: rs => by
    have hr := rankVal_lt r
    have ih := rlKey_lt rs
    simp only [rlKey, List.length_cons]
    calc
      rankVal r * 13 ^ rs.length + rlKey rs
          < rankVal r * 13 ^ rs.length + 13 ^ rs.length := Nat.add_lt_add_left ih _
      _ = (rankVal r + 1) * 13 ^ rs.length := by ring
      _ ≤ 13 * 13 ^ rs.length := Nat.mul_le_mul_right _ hr
      _ = 13 ^ (rs.length + 1) := by ring

theorem rankListCmp_key : ∀ {l1 l2 : List Rank}, l1.length = l2.length →
    rankListCmp l1 l2 = natCmp (rlKey l1) (rlKey l2)
  | [], [], _ => by simp [rankListCmp, rlKey, natCmp_self]
  | a :: l1, b :: l2, h => by
    have hlen : l1.length = l2.length := by simpa using h
    have ih := rankListCmp_key hlen
    have hb1 : rlKey l1 < 13 ^ l2.length := hlen ▸ rlKey_lt l1
    simp only [rankListCmp, rlKey, hlen]
    rw [natCmp_mul_add hb1 (rlKey_lt l2), ih]
    rfl

/-- Numeric key realising the full hand order `handCmp` on 5-card hands. -/
def handKey (cs : List Card) : Nat :=
  htKey (hand_typeD cs) * 371293 + rlKey (ranksOf cs)

theorem ranksOf_length (cs : List Card) : (ranksOf cs).length = cs.length := by
  simp [ranksOf]

theorem handCmp_key {a b : List Card} (ha : a.length = 5) (hb : b.length = 5) :
    handCmp a b = natCmp (handKey a) (handKey b) := by
  have hra : (ranksOf a).length = 5 := by rw [ranksOf_length, ha]
  have hrb : (ranksOf b).length = 5 := by rw [ranksOf_length, hb]
  have h1 : rlKey (ranksOf a) < 371293 := by
    have := rlKey_lt (ranksOf a)
    rw [hra] at this
    simpa using this
  have h2 : rlKey (ranksOf b) < 371293 := by
    have := rlKey_lt (ranksOf b)
    rw [hrb] at this
    simpa using this
  unfold handKey
  rw [natCmp_mul_add h1 h2, ← htCmp_key, ← rankListCmp_key (hra.trans hrb.symm)]
  unfold handCmp
  cases htCmp (hand_typeD a) (hand_typeD b) <;> rfl

/-- Rust `Iterator::max` under the comparator `cmp`: `none` on an empty
iterator, otherwise the last maximal element (a later element replaces the
current maximum unless it compares strictly less). -/
def maxBy (cmp : α → α → Ordering) : List α → Option α
  | [] => none
  | x :: xs =>
    match maxBy cmp xs with
    | none => some x
    | some m => if cmp x m = Ordering.gt then some x else some m

theorem maxBy_eq_none_iff {cmp : α → α → Ordering} {l : List α} :
    maxBy cmp l = none ↔ l = [] := by
  cases l with
  | nil => simp [maxBy]
  | cons x xs =>
    simp only [maxBy]
    cases maxBy cmp xs <;> simp
    split <;> simp

theorem maxBy_mem {cmp : α → α → Ordering} :
    ∀ {l : List α} {m : α}, maxBy cmp l = some m → m ∈ l := by
  intro l
  induction l with
  | nil => intro m h; simp [maxBy] at h
  | cons x xs ih =>
    intro m h
    simp only [maxBy] at h
    rcases hm : maxBy cmp xs with _ | m0 <;> rw [hm] at h <;> dsimp only at h
    · cases h
      exact List.mem_cons_self _ _
    · by_cases hc : cmp x m0 = Ordering.gt
      · rw [if_pos hc] at h
        cases h
        exact List.mem_cons_self _ _
      · rw [if_neg hc] at h
        cases h
        exact List.mem_cons_of_mem _ (ih hm)

/-- If the comparator agrees with comparison of a numeric key on all elements
of the list, the returned maximum has the largest key. -/
theorem maxBy_ge {cmp : α → α → Ordering} (k : α → Nat) :
    ∀ {l : List α}, (∀ x ∈ l, ∀ y ∈ l, cmp x y = natCmp (k x) (k y)) →
      ∀ {m : α}, maxBy cmp l = some m → ∀ x ∈ l, k x ≤ k m := by
  intro l
  induction l with
  | nil => intro _ m h; simp [maxBy] at h
  | cons a xs ih =>
    intro hcmp m hm x hx
    simp only [maxBy] at hm
    rcases h0 : maxBy cmp xs with _ | m0 <;> rw [h0] at hm <;> dsimp only at hm
    · have hxs : xs = [] := maxBy_eq_none_iff.mp h0
      subst hxs
      cases hm
      simp at hx
      subst hx
      exact Nat.le_refl _
    · have hxs_cmp : ∀ u ∈ xs, ∀ v ∈ xs, cmp u v = natCmp (k u) (k v) :=
        fun u hu v hv =>
          hcmp u (List.mem_cons_of_mem _ hu) v (List.mem_cons_of_mem _ hv)
      have hm0 : m0 ∈ xs := maxBy_mem h0
      have hge := ih hxs_cmp h0
      have hca : cmp a m0 = natCmp (k a) (k m0) :=
        hcmp a (List.mem_cons_self _ _) m0 (List.mem_cons_of_mem _ hm0)
      by_cases hc : cmp a m0 = Ordering.gt
      · rw [if_pos hc] at hm
        cases hm
        rw [hca] at hc
        have hlt : k m0 < k a := natCmp_eq_gt_iff.mp hc
        rcases List.mem_cons.mp hx with rfl | hx2
        · exact Nat.le_refl _
        · exact Nat.le_trans (hge x hx2) (Nat.le_of_lt hlt)
      · rw [if_neg hc] at hm
        cases hm
        rw [hca] at hc
        have hle : k a ≤ k m := by
          rcases Nat.lt_or_ge (k m) (k a) with h | h
          · exact absurd (natCmp_eq_gt_iff.mpr h) hc
          · exact h
        rcases List.mem_cons.mp hx with rfl | hx2
        · exact hle
        · exact hge x hx2

/-- Hand::best_hand: build a sorted 5-card hand from every length-5
permutation of the pool (itertools `permutations(5)`, modelled as all
orderings of every 5-element sublist, the same multiset of candidates) and
take the maximum under the hand order. -/
def best_hand (cards : List Card) : Option (List Card) :=
  maxBy handCmp (((cards.sublistsLen 5).flatMap List.permutations').map mkHand)

theorem mkHand_perm (cs : List Card) : (mkHand cs).Perm cs :=
  List.perm_insertionSort _ _

theorem mkHand_sorted (cs : List Card) : List.Sorted cardDesc (mkHand cs) :=
  List.sorted_insertionSort _ _

theorem mkHand_length (cs : List Card) : (mkHand cs).length = cs.length :=
  (mkHand_perm cs).length_eq

theorem mkHand_congr {l1 l2 : List Card} (h : l1.Perm l2) : mkHand l1 = mkHand l2 :=
  List.eq_of_perm_of_sorted (((mkHand_perm l1).trans h).trans (mkHand_perm l2).symm)
    (mkHand_sorted l1) (mkHand_sorted l2)

theorem dedupWithCount_sum : ∀ l : List Rank,
    ((dedupWithCount l).map Prod.fst).sum = l.length
  | [] => rfl
  | r :: rs => by
    have ih := dedupWithCount_sum rs
    simp only [dedupWithCount]
    rcases h : dedupWithCount rs with _ | ⟨⟨c, s⟩, rest⟩
    · rw [h] at ih
      simp_all
      omega
    · rw [h] at ih
      simp only [List.map, List.sum_cons] at ih
      by_cases hr : r = s
      · simp [hr, List.sum_cons]
        omega
      · simp [hr, List.sum_cons]
        omega

theorem groupsOf_sum (cs : List Card) :
    ((groupsOf cs).map Prod.fst).sum = cs.length := by
  unfold groupsOf
  have hp := (List.perm_insertionSort groupDesc (dedupWithCount (ranksOf cs))).map Prod.fst
  rw [hp.sum_eq, dedupWithCount_sum, ranksOf_length]

theorem classify_isSome {gs : List (Nat × Rank)}
    (h : (gs.map Prod.fst).sum = 5) : (classify gs).isSome = true := by
  rcases gs with _ | ⟨⟨c0, r0⟩, rest⟩
  · simp at h
  · rcases rest with _ | ⟨⟨c1, r1⟩, rest2⟩
    · simp only [List.map, List.sum_cons, List.sum_nil] at h
      have hc0 : c0 = 5 := by omega
      subst hc0
      simp [classify]
    · simp only [classify]
      split_ifs <;> simp

theorem hand_type_isSome {cs : List Card} (h : cs.length = 5) :
    (hand_type cs).isSome = true := by
  unfold hand_type
  rcases hs : extract_straight cs with _ | s
  · by_cases hf : is_flush cs
    · simp [hf]
    · simp only [Bool.not_eq_true] at hf
      simp only [hf, Bool.false_eq_true, if_false]
      exact classify_isSome (by rw [groupsOf_sum, h])
  · simp

theorem permutations_ne_nil (l : List α) : l.permutations' ≠ [] :=
  List.ne_nil_of_mem (List.mem_permutations'.mpr (List.Perm.refl l))

theorem best_hand_eq_none_iff {cards : List Card} :
    best_hand cards = none ↔ cards.length < 5 := by
  unfold best_hand
  rw [maxBy_eq_none_iff, List.map_eq_nil_iff, List.flatMap_eq_nil_iff]
  constructor
  · intro h
    by_contra hlt
    push_neg at hlt
    have hsub : cards.take 5 ∈ cards.sublistsLen 5 :=
      List.mem_sublistsLen.mpr ⟨List.take_sublist _ _, by rw [List.length_take]; omega⟩
    exact permutations_ne_nil _ (h _ hsub)
  · intro h x hx
    rcases List.mem_sublistsLen.mp hx with ⟨hs, hl⟩
    have := hs.length_le
    exact absurd hl (by omega)

theorem best_hand_mem {cards : List Card} {h : List Card}
    (hb : best_hand cards = some h) :
    ∃ sub, sub.Sublist cards ∧ sub.length = 5 ∧ h = mkHand sub := by
  have hm := maxBy_mem hb
  rcases List.mem_map.mp hm with ⟨perm, hperm, rfl⟩
  rcases List.mem_flatMap.mp hperm with ⟨sub, hsub, hp⟩
  rcases List.mem_sublistsLen.mp hsub with ⟨hs, hl⟩
  have hpp : perm.Perm sub := List.mem_permutations'.mp hp
  exact ⟨sub, hs, hl, mkHand_congr hpp⟩

theorem best_hand_length {cards : List Card} {h : List Card}
    (hb : best_hand cards = some h) : h.length = 5 := by
  rcases best_hand_mem hb with ⟨sub, _, hl, rfl⟩
  rw [mkHand_length, hl]

theorem best_hand_cand_length {cards : List Card} {x : List Card}
    (hx : x ∈ ((cards.sublistsLen 5).flatMap List.permutations').map mkHand) :
    x.length = 5 := by
  rcases List.mem_map.mp hx with ⟨perm, hperm, rfl⟩
  rcases List.mem_flatMap.mp hperm with ⟨sub, hsub, hp⟩
  rcases List.mem_sublistsLen.mp hsub with ⟨_, hl⟩
  rw [mkHand_length, (List.mem_permutations'.mp hp).length_eq, hl]

/-- The hand returned by `best_hand` has maximal key among the hands formed
from every 5-card sub-multiset of the pool. -/
theorem best_hand_ge {cards : List Card} {h : List Card}
    (hb : best_hand cards = some h) :
    ∀ sub : List Card, List.Subperm sub cards → sub.length = 5 →
      handKey (mkHand sub) ≤ handKey h := by
  intro sub hsp hlen
  rcases hsp with ⟨t, hts, htsub⟩
  have htlen : t.length = 5 := by rw [hts.length_eq, hlen]
  have htmem : t ∈ cards.sublistsLen 5 := List.mem_sublistsLen.mpr ⟨htsub, htlen⟩
  have hsubmem : sub ∈ t.permutations' := List.mem_permutations'.mpr hts.symm
  have hmm : mkHand sub ∈ ((cards.sublistsLen 5).flatMap List.permutations').map mkHand :=
    List.mem_map.mpr ⟨sub, List.mem_flatMap.mpr ⟨t, htmem, hsubmem⟩, rfl⟩
  refine maxBy_ge handKey ?_ hb (mkHand sub) hmm
  intro x hx y hy
  exact handCmp_key (best_hand_cand_length hx) (best_hand_cand_length hy)

/-- Deck::deal_n: remove and return the last `n` cards.  The result is the
pair (dealt cards, deck afterwards); on failure (`n` exceeds the remaining
count) nothing is dealt and the deck is unchanged. -/
def deal_n (n : Nat) (d : List Card) : Option (List Card) × List Card :=
  if d.length < n then (none, d)
  else (some (d.drop (d.length - n)), d.take (d.length - n))

/-- Ranks in the order of `Rank::iter` (declaration order). -/
def allRanks : List Rank :=
  [.Two, .Three, .Four, .Five, .Six, .Seven, .Eight, .Nine, .Ten,
   .Jack, .Queen, .King, .Ace]

/-- Suits in the order of `Suit::iter` (declaration order). -/
def allSuits : List Suit := [.Hearts, .Clubs, .Spades, .Diamonds]

/-- The 52-card universe in the order of `Card::iter`
(`Rank::iter` Cartesian product `Suit::iter`); also the content of a fresh
`Deck::new` before shuffling. -/
def allCards : List Card :=
  allRanks.flatMap (fun r => allSuits.map (fun s => { rank := r, suit := s }))

/-- itertools `combinations(2)`: every unordered pair, each once, in
enumeration order. -/
def pairsOf : List α → List (α × α)
  | [] => []
  | x :: xs => (xs.map (fun y => (x, y))) ++ pairsOf xs

/-- Derived `Ord` on `Option<Hand>`: `None` is below every `Some`. -/
def optHandCmp : Option (List Card) → Option (List Card) → Ordering
  | none, none => Ordering.eq
  | none, some _ => Ordering.lt
  | some _, none => Ordering.gt
  | some a, some b => handCmp a b

/-- Derived `Ord` on the tuples `(Option<Hand>, [Card; 2])` that `find_nuts`
maximises over: hand first, then the card pair lexicographically. -/
def candCmp (x y : Option (List Card) × (Card × Card)) : Ordering :=
  (optHandCmp x.1 y.1).then ((cardCmp x.2.1 y.2.1).then (cardCmp x.2.2 y.2.2))

/-- find_nuts from `hold_em.rs`: enumerate every unordered pair of cards not
on the board, evaluate `best_hand` over board plus pair, and take the
maximum candidate.  The outer `Option` models the two panics of the source
(fewer than 3 community cards, and `.max().expect(..)` on no candidates). -/
def find_nuts (community : List Card) :
    Option (Option (List Card) × (Card × Card)) :=
  if community.length < 3 then none
  else
    maxBy candCmp
      ((pairsOf (allCards.filter (fun c => !(community.contains c)))).map
        (fun p => (best_hand (community ++ [p.1, p.2]), p)))

/-- Numeric key realising the `Option<Hand>` order on 5-card hands. -/
def optHandKey : Option (List Card) → Nat
  | none => 0
  | some h => handKey h + 1

/-- Numeric key realising the candidate-tuple order of `find_nuts`. -/
def candKey (x : Option (List Card) × (Card × Card)) : Nat :=
  optHandKey x.1 * 2704 + (cardKey x.2.1 * 52 + cardKey x.2.2)

theorem cardPairKey_lt (a b : Card) : cardKey a * 52 + cardKey b < 2704 := by
  have h1 := cardKey_lt a
  have h2 := cardKey_lt b
  omega

theorem optHandCmp_key {x y : Option (List Card)}
    (hx : ∀ h, x = some h → h.length = 5) (hy : ∀ h, y = some h → h.length = 5) :
    optHandCmp x y = natCmp (optHandKey x) (optHandKey y) := by
  cases x with
  | none =>
    cases y with
    | none => simp [optHandCmp, optHandKey, natCmp_self]
    | some b =>
      have hb : natCmp 0 (handKey b + 1) = Ordering.lt := natCmp_eq_lt_iff.mpr (by omega)
      simp [optHandCmp, optHandKey, hb]
  | some a =>
    cases y with
    | none =>
      have ha : natCmp (handKey a + 1) 0 = Ordering.gt := natCmp_eq_gt_iff.mpr (by omega)
      simp [optHandCmp, optHandKey, ha]
    | some b =>
      simp only [optHandCmp, optHandKey]
      rw [natCmp_succ, handCmp_key (hx a rfl) (hy b rfl)]

theorem candCmp_key {x y : Option (List Card) × (Card × Card)}
    (hx : ∀ h, x.1 = some h → h.length = 5) (hy : ∀ h, y.1 = some h → h.length = 5) :
    candCmp x y = natCmp (candKey x) (candKey y) := by
  unfold candCmp candKey
  rw [natCmp_mul_add (cardPairKey_lt _ _) (cardPairKey_lt _ _), optHandCmp_key hx hy]
  congr 1
  rw [natCmp_mul_add (cardKey_lt _) (cardKey_lt _), cardCmp_key, cardCmp_key]

theorem mem_pairsOf : ∀ {l : List α} {a b : α}, (a, b) ∈ pairsOf l → a ∈ l ∧ b ∈ l
  | [], a, b, h => by simp [pairsOf] at h
  | x :: xs, a, b, h => by
    simp only [pairsOf, List.mem_append] at h
    rcases h with h | h
    · rcases List.mem_map.mp h with ⟨y, hy, heq⟩
      cases heq
      exact ⟨List.mem_cons_self _ _, List.mem_cons_of_mem _ hy⟩
    · rcases mem_pairsOf h with ⟨ha, hb⟩
      exact ⟨List.mem_cons_of_mem _ ha, List.mem_cons_of_mem _ hb⟩

theorem pairsOf_ne : ∀ {l : List α}, l.Nodup → ∀ {a b : α}, (a, b) ∈ pairsOf l → a ≠ b
  | [], _, a, b, h => by simp [pairsOf] at h
  | x :: xs, hnd, a, b, h => by
    simp only [pairsOf, List.mem_append] at h
    rcases h with h | h
    · rcases List.mem_map.mp h with ⟨y, hy, heq⟩
      cases heq
      intro hab
      subst hab
      exact (List.nodup_cons.mp hnd).1 hy
    · exact pairsOf_ne (List.nodup_cons.mp hnd).2 h

theorem pairsOf_complete : ∀ {l : List α} {a b : α}, a ∈ l → b ∈ l → a ≠ b →
    (a, b) ∈ pairsOf l ∨ (b, a) ∈ pairsOf l
  | [], a, b, ha, _, _ => by simp at ha
  | x :: xs, a, b, ha, hb, hne => by
    rcases List.mem_cons.mp ha with rfl | ha2
    · have hb2 : b ∈ xs := by
        rcases List.mem_cons.mp hb with rfl | hbb
        · exact absurd rfl hne
        · exact hbb
      left
      simp only [pairsOf, List.mem_append]
      exact Or.inl (List.mem_map.mpr ⟨b, hb2, rfl⟩)
    · rcases List.mem_cons.mp hb with rfl | hb2
      · right
        simp only [pairsOf, List.mem_append]
        exact Or.inl (List.mem_map.mpr ⟨a, ha2, rfl⟩)
      · rcases pairsOf_complete ha2 hb2 hne with h | h
        · exact Or.inl (by simp only [pairsOf, List.mem_append]; exact Or.inr h)
        · exact Or.inr (by simp only [pairsOf, List.mem_append]; exact Or.inr h)

theorem pairsOf_ne_nil : ∀ {l : List α}, 2 ≤ l.length → pairsOf l ≠ []
  | [], h => by simp at h
  | [x], h => by simp at h
  | x :: y :: xs, _ => by simp [pairsOf]

theorem htCmp_self (t : HandType) : htCmp t t = Ordering.eq := by
  rw [htCmp_key, natCmp_self]

theorem rankListCmp_self (l : List Rank) : rankListCmp l l = Ordering.eq := by
  rw [rankListCmp_key rfl, natCmp_self]

theorem allCards_nodup : allCards.Nodup := by decide

theorem allCards_complete (c : Card) : c ∈ allCards := by
  rcases c with ⟨r, s⟩
  cases r <;> cases s <;> decide

theorem allCards_length : allCards.length = 52 := by decide

/-- Shorthand for a concrete card. -/
def cardOf (r : Rank) (s : Suit) : Card := { rank := r, suit := s }

/-- C10: `hand_type` is a total function on all 5-card hands.  The
`groups[1]` access in its classification match is modelled by the `none`
results of `classify`; on any 5 cards (even with duplicated cards) the run
groups of the 5 ranks leave a second group whenever the largest count is 2
or 3, so classification never fails with an out-of-range index. -/
theorem c10_hand_type_total (c1 c2 c3 c4 c5 : Card) :
    (hand_type [c1, c2, c3, c4, c5]).isSome = true :=
  hand_type_isSome rfl

/-- C7: with fewer than 3 community cards, `find_nuts` fails (the `none`
that models the source's panic) and never returns a hand answer. -/
theorem c7_find_nuts_short_board (community : List Card)
    (h : community.length < 3) : find_nuts community = none := by
  unfold find_nuts
  rw [if_pos h]

/-- Witness for C7: a concrete 2-card board. -/
theorem c7_find_nuts_short_board_witness :
    find_nuts [cardOf Rank.Ace Suit.Hearts, cardOf Rank.King Suit.Clubs] = none :=
  c7_find_nuts_short_board _ (by decide)

/-- C8: for `n` at most the remaining count, dealing removes and returns
exactly the last `n` cards of the deck order (the preceding cards remain,
in order); for larger `n` dealing fails and the deck is unmodified. -/
theorem c8_deal_n_spec (n : Nat) (d : List Card) :
    (n ≤ d.length →
      ∃ dealt rest, deal_n n d = (some dealt, rest) ∧
        dealt.length = n ∧ rest ++ dealt = d) ∧
    (d.length < n → deal_n n d = (none, d)) := by
  constructor
  · intro h
    refine ⟨d.drop (d.length - n), d.take (d.length - n), ?_, ?_, ?_⟩
    · unfold deal_n
      rw [if_neg (by omega)]
    · rw [List.length_drop]
      omega
    · exact List.take_append_drop _ _
  · intro h
    unfold deal_n
    rw [if_pos h]

/-- Witness for C8: one successful deal and one failing deal on a concrete
2-card deck. -/
theorem c8_deal_n_spec_witness :
    (∃ dealt rest,
        deal_n 1 [cardOf Rank.Ace Suit.Hearts, cardOf Rank.King Suit.Clubs] =
          (some dealt, rest) ∧ dealt.length = 1 ∧
        rest ++ dealt = [cardOf Rank.Ace Suit.Hearts, cardOf Rank.King Suit.Clubs]) ∧
    deal_n 3 [cardOf Rank.Ace Suit.Hearts, cardOf Rank.King Suit.Clubs] =
      (none, [cardOf Rank.Ace Suit.Hearts, cardOf Rank.King Suit.Clubs]) :=
  ⟨(c8_deal_n_spec 1 _).1 (by decide), (c8_deal_n_spec 3 _).2 (by decide)⟩

/-- C4: the `HandType` order is total; the variant dominates the embedded
ranks (each of the nine variants is strictly below the next for all embedded
rank values); within one variant the embedded ranks break ties
lexicographically (e.g. `Pair(King) > Pair(Two)` and
`TwoPair(King,Queen) > TwoPair(King,Jack)`). -/
theorem c4_handtype_order :
    (∀ a b : HandType,
        htCmp a b = Ordering.lt ∨ a = b ∨ htCmp b a = Ordering.lt) ∧
    (∀ r : Rank, htCmp HandType.HighCard (HandType.Pair r) = Ordering.lt) ∧
    (∀ r hi lo : Rank,
        htCmp (HandType.Pair r) (HandType.TwoPair hi lo) = Ordering.lt) ∧
    (∀ hi lo t : Rank,
        htCmp (HandType.TwoPair hi lo) (HandType.ThreeOfAKind t) = Ordering.lt) ∧
    (∀ t s : Rank,
        htCmp (HandType.ThreeOfAKind t) (HandType.Straight s) = Ordering.lt) ∧
    (∀ s : Rank, htCmp (HandType.Straight s) HandType.Flush = Ordering.lt) ∧
    (∀ f1 f2 : Rank, htCmp HandType.Flush (HandType.FullHouse f1 f2) = Ordering.lt) ∧
    (∀ f1 f2 q : Rank,
        htCmp (HandType.FullHouse f1 f2) (HandType.FourOfAKind q) = Ordering.lt) ∧
    (∀ q s : Rank,
        htCmp (HandType.FourOfAKind q) (HandType.StraightFlush s) = Ordering.lt) ∧
    (∀ r1 r2 : Rank, htCmp (HandType.Pair r1) (HandType.Pair r2) = rankCmp r1 r2) ∧
    (∀ a1 a2 b1 b2 : Rank,
        htCmp (HandType.TwoPair a1 a2) (HandType.TwoPair b1 b2) =
          (rankCmp a1 b1).then (rankCmp a2 b2)) ∧
    htCmp (HandType.Pair Rank.Two) (HandType.Pair Rank.King) = Ordering.lt ∧
    htCmp (HandType.TwoPair Rank.King Rank.Jack)
      (HandType.TwoPair Rank.King Rank.Queen) = Ordering.lt := by
  refine ⟨?_, by decide, by decide, by decide, by decide, by decide, by decide,
    by decide, by decide, ?_, ?_, by decide, by decide⟩
  · intro a b
    rcases Nat.lt_trichotomy (htKey a) (htKey b) with h | h | h
    · exact Or.inl (by rw [htCmp_key]; exact natCmp_eq_lt_iff.mpr h)
    · exact Or.inr (Or.inl (htKey_inj h))
    · exact Or.inr (Or.inr (by rw [htCmp_key]; exact natCmp_eq_lt_iff.mpr h))
  · intro r1 r2
    show (natCmp 1 1).then (rankCmp r1 r2) = rankCmp r1 r2
    rw [natCmp_self]
    rfl
  · intro a1 a2 b1 b2
    show (natCmp 2 2).then ((rankCmp a1 b1).then (rankCmp a2 b2)) = _
    rw [natCmp_self]
    rfl

/-- C1: for every 5-card hand, a straight is detected exactly when the ranks
are the wheel pattern `[A,5,4,3,2]` (high rank Five) or form a descending
successor chain never passing through an Ace (high rank the first rank);
moreover the one-suited wheel classifies as `StraightFlush(Five)` and the
one-suited `[A,K,Q,J,10]` as `StraightFlush(Ace)`. -/
theorem c1_straight_detection :
    (∀ (cs : List Card) (r : Rank), cs.length = 5 →
      (extract_straight cs = some r ↔
        (ranksOf cs = [Rank.Ace, Rank.Five, Rank.Four, Rank.Three, Rank.Two] ∧
          r = Rank.Five) ∨
        (straightChain (ranksOf cs) = true ∧ (ranksOf cs).head? = some r))) ∧
    hand_type (mkHand [cardOf Rank.Three Suit.Spades, cardOf Rank.Ace Suit.Spades,
        cardOf Rank.Two Suit.Spades, cardOf Rank.Five Suit.Spades,
        cardOf Rank.Four Suit.Spades]) =
      some (HandType.StraightFlush Rank.Five) ∧
    hand_type (mkHand [cardOf Rank.Jack Suit.Hearts, cardOf Rank.Ace Suit.Hearts,
        cardOf Rank.Ten Suit.Hearts, cardOf Rank.King Suit.Hearts,
        cardOf Rank.Queen Suit.Hearts]) =
      some (HandType.StraightFlush Rank.Ace) := by
  refine ⟨?_, by decide, by decide⟩
  intro cs r hlen
  unfold extract_straight
  by_cases hw : ranksOf cs = [Rank.Ace, Rank.Five, Rank.Four, Rank.Three, Rank.Two]
  · rw [if_pos hw]
    have hchain : straightChain (ranksOf cs) = false := by
      rw [hw]
      decide
    constructor
    · intro h
      cases h
      exact Or.inl ⟨hw, rfl⟩
    · intro h
      rcases h with ⟨_, hr⟩ | ⟨hc, _⟩
      · rw [hr]
      · rw [hchain] at hc
        cases hc
  · rw [if_neg hw]
    by_cases hc : straightChain (ranksOf cs) = true
    · rw [if_pos hc]
      constructor
      · intro h
        exact Or.inr ⟨hc, h⟩
      · intro h
        rcases h with ⟨hw2, _⟩ | ⟨_, hh⟩
        · exact absurd hw2 hw
        · exact hh
    · rw [if_neg hc]
      constructor
      · intro h
        cases h
      · intro h
        rcases h with ⟨hw2, _⟩ | ⟨hc2, _⟩
        · exact absurd hw2 hw
        · exact absurd hc2 hc

/-- Witness for C1: the straight test applied to a concrete six-high
straight flush. -/
theorem c1_straight_detection_witness :
    extract_straight [cardOf Rank.Six Suit.Diamonds, cardOf Rank.Five Suit.Diamonds,
      cardOf Rank.Four Suit.Diamonds, cardOf Rank.Three Suit.Diamonds,
      cardOf Rank.Two Suit.Diamonds] = some Rank.Six :=
  (c1_straight_detection.1
    [cardOf Rank.Six Suit.Diamonds, cardOf Rank.Five Suit.Diamonds,
      cardOf Rank.Four Suit.Diamonds, cardOf Rank.Three Suit.Diamonds,
      cardOf Rank.Two Suit.Diamonds] Rank.Six rfl).mpr
    (Or.inr ⟨by decide, by decide⟩)

/-- Dispatch table of the claim (spec side): decide by the largest group's
count — 4 gives four of a kind; 3 gives a full house when the second group
has count 2 and three of a kind otherwise; 2 gives two pair when the second
group has count 2 and a pair otherwise; anything else is a high card. -/
def specDispatch : List (Nat × Rank) → HandType
  | [] => HandType.HighCard
  | (c0, r0) :: rest =>
    if c0 = 4 then HandType.FourOfAKind r0
    else if c0 = 3 then
      match rest with
      | (c1, r1) :: _ =>
        if c1 = 2 then HandType.FullHouse r0 r1 else HandType.ThreeOfAKind r0
      | [] => HandType.ThreeOfAKind r0
    else if c0 = 2 then
      match rest with
      | (c1, r1) :: _ =>
        if c1 = 2 then HandType.TwoPair r0 r1 else HandType.Pair r0
      | [] => HandType.Pair r0
    else HandType.HighCard

theorem classify_eq_specDispatch {gs : List (Nat × Rank)}
    (h : (gs.map Prod.fst).sum = 5) : classify gs = some (specDispatch gs) := by
  rcases gs with _ | ⟨⟨c0, r0⟩, rest⟩
  · simp at h
  · rcases rest with _ | ⟨⟨c1, r1⟩, rest2⟩
    · simp only [List.map, List.sum_cons, List.sum_nil] at h
      have hc0 : c0 = 5 := by omega
      subst hc0
      rfl
    · simp only [classify, specDispatch]
      split_ifs <;> first | rfl | omega

/-- C2: on a 5-card hand of distinct cards (stored descending) that is
neither a straight nor a flush, the classification is exactly the dispatch
on the run-length groups of the ranks, sorted descending by count then
rank. -/
theorem c2_group_classification (cs : List Card) (hlen : cs.length = 5)
    (hnd : cs.Nodup) (hsort : List.Sorted cardDesc cs)
    (hstr : extract_straight cs = none) (hfl : is_flush cs = false) :
    hand_type cs = some (specDispatch (groupsOf cs)) := by
  unfold hand_type
  rw [hstr]
  simp only [hfl, Bool.false_eq_true, if_false]
  exact classify_eq_specDispatch (by rw [groupsOf_sum, hlen])

/-- Witness for C2: a concrete pair hand. -/
theorem c2_group_classification_witness :
    hand_type [cardOf Rank.King Suit.Diamonds, cardOf Rank.King Suit.Spades,
        cardOf Rank.Seven Suit.Spades, cardOf Rank.Four Suit.Diamonds,
        cardOf Rank.Two Suit.Hearts] =
      some (specDispatch (groupsOf [cardOf Rank.King Suit.Diamonds,
        cardOf Rank.King Suit.Spades, cardOf Rank.Seven Suit.Spades,
        cardOf Rank.Four Suit.Diamonds, cardOf Rank.Two Suit.Hearts])) :=
  c2_group_classification _ rfl (by decide) (by decide) (by decide) (by decide)

/-- C3: hand comparison compares the hand types first and, when they are
identical (embedded ranks included), breaks the tie by comparing the full
descending 5-rank sequences lexicographically; consequently two different
card sets with the same classification and the same ranks compare as equal
(the concrete example uses two disjoint high-card hands of equal ranks). -/
theorem c3_hand_ordering :
    (∀ a b : List Card,
      (htCmp (hand_typeD a) (hand_typeD b) ≠ Ordering.eq →
        handCmp a b = htCmp (hand_typeD a) (hand_typeD b)) ∧
      (htCmp (hand_typeD a) (hand_typeD b) = Ordering.eq →
        handCmp a b = rankListCmp (ranksOf a) (ranksOf b)) ∧
      (hand_typeD a = hand_typeD b → ranksOf a = ranksOf b → handEq a b = true)) ∧
    ([cardOf Rank.Ace Suit.Hearts, cardOf Rank.King Suit.Clubs,
        cardOf Rank.Queen Suit.Spades, cardOf Rank.Jack Suit.Diamonds,
        cardOf Rank.Nine Suit.Hearts] ≠
      [cardOf Rank.Ace Suit.Clubs, cardOf Rank.King Suit.Hearts,
        cardOf Rank.Queen Suit.Diamonds, cardOf Rank.Jack Suit.Spades,
        cardOf Rank.Nine Suit.Clubs] ∧
      handEq [cardOf Rank.Ace Suit.Hearts, cardOf Rank.King Suit.Clubs,
        cardOf Rank.Queen Suit.Spades, cardOf Rank.Jack Suit.Diamonds,
        cardOf Rank.Nine Suit.Hearts]
        [cardOf Rank.Ace Suit.Clubs, cardOf Rank.King Suit.Hearts,
          cardOf Rank.Queen Suit.Diamonds, cardOf Rank.Jack Suit.Spades,
          cardOf Rank.Nine Suit.Clubs] = true) := by
  refine ⟨?_, by decide, by decide⟩
  intro a b
  refine ⟨?_, ?_, ?_⟩
  · intro h
    unfold handCmp
    rcases hcc : htCmp (hand_typeD a) (hand_typeD b) with _ | _ | _
    · rfl
    · exact absurd hcc h
    · rfl
  · intro h
    unfold handCmp
    rw [h]
  · intro h1 h2
    unfold handEq handCmp
    rw [h1, h2, htCmp_self, rankListCmp_self]
    rfl

/-- Witness for C3: the three comparison laws instantiated at concrete
hands (a pair hand against a high-card hand, and a hand against itself). -/
theorem c3_hand_ordering_witness :
    (handCmp [cardOf Rank.King Suit.Diamonds, cardOf Rank.King Suit.Spades,
        cardOf Rank.Seven Suit.Spades, cardOf Rank.Four Suit.Diamonds,
        cardOf Rank.Two Suit.Hearts]
      [cardOf Rank.Ace Suit.Hearts, cardOf Rank.King Suit.Clubs,
        cardOf Rank.Queen Suit.Spades, cardOf Rank.Jack Suit.Diamonds,
        cardOf Rank.Nine Suit.Hearts] =
      htCmp (hand_typeD [cardOf Rank.King Suit.Diamonds, cardOf Rank.King Suit.Spades,
        cardOf Rank.Seven Suit.Spades, cardOf Rank.Four Suit.Diamonds,
        cardOf Rank.Two Suit.Hearts])
        (hand_typeD [cardOf Rank.Ace Suit.Hearts, cardOf Rank.King Suit.Clubs,
          cardOf Rank.Queen Suit.Spades, cardOf Rank.Jack Suit.Diamonds,
          cardOf Rank.Nine Suit.Hearts])) ∧
    (handCmp [cardOf Rank.Ace Suit.Hearts, cardOf Rank.King Suit.Clubs,
        cardOf Rank.Queen Suit.Spades, cardOf Rank.Jack Suit.Diamonds,
        cardOf Rank.Nine Suit.Hearts]
      [cardOf Rank.Ace Suit.Hearts, cardOf Rank.King Suit.Clubs,
        cardOf Rank.Queen Suit.Spades, cardOf Rank.Jack Suit.Diamonds,
        cardOf Rank.Nine Suit.Hearts] =
      rankListCmp (ranksOf [cardOf Rank.Ace Suit.Hearts, cardOf Rank.King Suit.Clubs,
        cardOf Rank.Queen Suit.Spades, cardOf Rank.Jack Suit.Diamonds,
        cardOf Rank.Nine Suit.Hearts])
        (ranksOf [cardOf Rank.Ace Suit.Hearts, cardOf Rank.King Suit.Clubs,
          cardOf Rank.Queen Suit.Spades, cardOf Rank.Jack Suit.Diamonds,
          cardOf Rank.Nine Suit.Hearts])) ∧
    handEq [cardOf Rank.Ace Suit.Hearts, cardOf Rank.King Suit.Clubs,
        cardOf Rank.Queen Suit.Spades, cardOf Rank.Jack Suit.Diamonds,
        cardOf Rank.Nine Suit.Hearts]
      [cardOf Rank.Ace Suit.Hearts, cardOf Rank.King Suit.Clubs,
        cardOf Rank.Queen Suit.Spades, cardOf Rank.Jack Suit.Diamonds,
        cardOf Rank.Nine Suit.Hearts] = true :=
  ⟨(c3_hand_ordering.1 _ _).1 (by decide),
   (c3_hand_ordering.1 _ _).2.1 (by decide),
   (c3_hand_ordering.1 _ _).2.2 rfl rfl⟩

/-- C9: dealing `n` cards from any shuffle of a fresh 52-card deck and then
dealing the remaining `52 - n` yields the full 52-card universe with no
repeats and no omissions. -/
theorem c9_deck_partition (deck : List Card) (hp : deck.Perm allCards)
    (n : Nat) (hn : n ≤ 52) :
    ∃ d1 rest d2,
      deal_n n deck = (some d1, rest) ∧
      deal_n (52 - n) rest = (some d2, []) ∧
      d1.length = n ∧ d2.length = 52 - n ∧
      (d1 ++ d2).Nodup ∧ ∀ c : Card, c ∈ d1 ++ d2 := by
  have hlen : deck.length = 52 := by rw [hp.length_eq, allCards_length]
  have hrl : (deck.take (deck.length - n)).length = 52 - n := by
    rw [List.length_take]
    omega
  have hperm2 : (deck.drop (deck.length - n) ++ deck.take (deck.length - n)).Perm
      allCards := by
    have hsplit : deck.take (deck.length - n) ++ deck.drop (deck.length - n) = deck :=
      List.take_append_drop _ _
    have h1 : (deck.drop (deck.length - n) ++ deck.take (deck.length - n)).Perm
        (deck.take (deck.length - n) ++ deck.drop (deck.length - n)) :=
      List.perm_append_comm
    rw [hsplit] at h1
    exact h1.trans hp
  refine ⟨deck.drop (deck.length - n), deck.take (deck.length - n),
    deck.take (deck.length - n), ?_, ?_, ?_, ?_, ?_, ?_⟩
  · unfold deal_n
    rw [if_neg (by omega)]
  · unfold deal_n
    have h0 : (deck.take (deck.length - n)).length - (52 - n) = 0 := by
      rw [hrl]
      omega
    rw [if_neg (by rw [hrl]; omega), h0]
    simp
  · rw [List.length_drop]
    omega
  · exact hrl
  · exact hperm2.nodup_iff.mpr allCards_nodup
  · intro c
    exact hperm2.mem_iff.mpr (allCards_complete c)

/-- Witness for C9: the identity shuffle dealt as 5 then 47. -/
theorem c9_deck_partition_witness :
    ∃ d1 rest d2,
      deal_n 5 allCards = (some d1, rest) ∧
      deal_n (52 - 5) rest = (some d2, []) ∧
      d1.length = 5 ∧ d2.length = 52 - 5 ∧
      (d1 ++ d2).Nodup ∧ ∀ c : Card, c ∈ d1 ++ d2 :=
  c9_deck_partition allCards (List.Perm.refl _) 5 (by decide)

/-- C5: `best_hand` is absent exactly on pools smaller than 5; on a pool of
at least 5 distinct cards it returns the (sorted) hand of some 5-card subset
of the pool, and that hand is at least (never below, in the hand order) the
hand formed from every 5-card unordered subset of the pool. -/
theorem c5_best_hand (cards : List Card) (hnd : cards.Nodup) :
    (best_hand cards = none ↔ cards.length < 5) ∧
    (∀ h, best_hand cards = some h →
      (∃ sub, sub.Sublist cards ∧ sub.length = 5 ∧ h = mkHand sub) ∧
      (∀ sub, List.Subperm sub cards → sub.length = 5 →
        handCmp h (mkHand sub) ≠ Ordering.lt)) := by
  refine ⟨best_hand_eq_none_iff, ?_⟩
  intro h hb
  refine ⟨best_hand_mem hb, ?_⟩
  intro sub hsp hlen
  have hkey := best_hand_ge hb sub hsp hlen
  have hh5 : h.length = 5 := best_hand_length hb
  have hm5 : (mkHand sub).length = 5 := by rw [mkHand_length, hlen]
  rw [handCmp_key hh5 hm5]
  exact natCmp_ne_lt_iff.mpr hkey

/-- Witness for C5: a concrete 5-card pool, whose unique 5-card subset is
the pool itself. -/
theorem c5_best_hand_witness :
    ((best_hand [cardOf Rank.Ace Suit.Hearts, cardOf Rank.King Suit.Hearts,
        cardOf Rank.Queen Suit.Hearts, cardOf Rank.Jack Suit.Hearts,
        cardOf Rank.Nine Suit.Hearts] = none ↔
      ([cardOf Rank.Ace Suit.Hearts, cardOf Rank.King Suit.Hearts,
        cardOf Rank.Queen Suit.Hearts, cardOf Rank.Jack Suit.Hearts,
        cardOf Rank.Nine Suit.Hearts] : List Card).length < 5) ∧
    ((∃ sub, sub.Sublist [cardOf Rank.Ace Suit.Hearts, cardOf Rank.King Suit.Hearts,
          cardOf Rank.Queen Suit.Hearts, cardOf Rank.Jack Suit.Hearts,
          cardOf Rank.Nine Suit.Hearts] ∧ sub.length = 5 ∧
        [cardOf Rank.Ace Suit.Hearts, cardOf Rank.King Suit.Hearts,
          cardOf Rank.Queen Suit.Hearts, cardOf Rank.Jack Suit.Hearts,
          cardOf Rank.Nine Suit.Hearts] = mkHand sub) ∧
      (∀ sub, List.Subperm sub [cardOf Rank.Ace Suit.Hearts,
            cardOf Rank.King Suit.Hearts, cardOf Rank.Queen Suit.Hearts,
            cardOf Rank.Jack Suit.Hearts, cardOf Rank.Nine Suit.Hearts] →
          sub.length = 5 →
        handCmp [cardOf Rank.Ace Suit.Hearts, cardOf Rank.King Suit.Hearts,
          cardOf Rank.Queen Suit.Hearts, cardOf Rank.Jack Suit.Hearts,
          cardOf Rank.Nine Suit.Hearts] (mkHand sub) ≠ Ordering.lt))) :=
  ⟨(c5_best_hand _ (by decide)).1,
   (c5_best_hand _ (by decide)).2 _ (by decide)⟩

theorem length_filter_split {p q : α → Bool} (hpq : ∀ a, q a = !(p a)) :
    ∀ l : List α, l.length = (l.filter p).length + (l.filter q).length
  | [] => rfl
  | x :: xs => by
    have ih := length_filter_split hpq xs
    rcases hp : p x with _ | _
    · have hq : q x = true := by rw [hpq, hp]; rfl
      simp [List.filter_cons, hp, hq]
      omega
    · have hq : q x = false := by rw [hpq, hp]; rfl
      simp [List.filter_cons, hp, hq]
      omega

/-- C6 counterexample: a 51-card community board of distinct cards passes
the length guard but leaves a single card outside the board, so there is no
2-card candidate pair and `find_nuts` fails (the model of the
`.max().expect(..)` panic) instead of returning a winning hand and pair. -/
theorem c6_find_nuts_counterexample :
    3 ≤ (allCards.take 51).length ∧ (allCards.take 51).Nodup ∧
    find_nuts (allCards.take 51) = none :=
  ⟨by decide, by decide, by decide⟩

/-- C6 (amended): for a community board of at least 3 and at most 50
distinct cards, `find_nuts` returns a pair of distinct cards not on the
board together with the hand `best_hand` computes over board plus pair, and
that hand is at least `best_hand` of the board with any candidate pair of
distinct off-board cards.  (The upper bound 50 is forced: with more than 50
board cards fewer than two cards remain, the candidate enumeration is empty
and the source panics — see the counterexample.) -/
theorem c6_find_nuts_amended (community : List Card)
    (h3 : 3 ≤ community.length) (h50 : community.length ≤ 50)
    (hnd : community.Nodup) :
    ∃ h a b, find_nuts community = some (some h, (a, b)) ∧
      a ∉ community ∧ b ∉ community ∧ a ≠ b ∧
      best_hand (community ++ [a, b]) = some h ∧
      ∀ p q h2, p ∉ community → q ∉ community → p ≠ q →
        best_hand (community ++ [p, q]) = some h2 →
        handCmp h h2 ≠ Ordering.lt := by
  have hmem_comp : ∀ c : Card,
      c ∈ allCards.filter (fun x => !(community.contains x)) ↔ c ∉ community := by
    intro c
    rw [List.mem_filter]
    simp [allCards_complete c]
  have hcomp_nd : (allCards.filter (fun x => !(community.contains x))).Nodup :=
    allCards_nodup.filter _
  have hAsub : (allCards.filter (fun x => community.contains x)).Subperm community := by
    refine List.subperm_of_subset (allCards_nodup.filter _) ?_
    intro x hx
    have hx2 := (List.mem_filter.mp hx).2
    simpa using hx2
  have hAlen := hAsub.length_le
  have hs := length_filter_split (p := fun x => community.contains x)
    (q := fun x => !(community.contains x)) (fun a => rfl) allCards
  rw [allCards_length] at hs
  have hclen : 2 ≤ (allCards.filter (fun x => !(community.contains x))).length := by
    omega
  have hbh_some : ∀ u v : Card, ∃ h0, best_hand (community ++ [u, v]) = some h0 := by
    intro u v
    rcases hh : best_hand (community ++ [u, v]) with _ | h0
    · exfalso
      have h2 := best_hand_eq_none_iff.mp hh
      rw [List.length_append] at h2
      simp at h2
      omega
    · exact ⟨h0, rfl⟩
  have hkey_cand : ∀ x ∈ (pairsOf (allCards.filter (fun c => !(community.contains c)))).map
        (fun p => (best_hand (community ++ [p.1, p.2]), p)),
      ∀ y ∈ (pairsOf (allCards.filter (fun c => !(community.contains c)))).map
        (fun p => (best_hand (community ++ [p.1, p.2]), p)),
      candCmp x y = natCmp (candKey x) (candKey y) := by
    intro x hx y hy
    rcases List.mem_map.mp hx with ⟨px, _, hxe⟩
    rcases List.mem_map.mp hy with ⟨py, _, hye⟩
    refine candCmp_key ?_ ?_
    · intro hh hhx
      rw [← hxe] at hhx
      exact best_hand_length hhx
    · intro hh hhy
      rw [← hye] at hhy
      exact best_hand_length hhy
  rcases hmax : maxBy candCmp
      ((pairsOf (allCards.filter (fun c => !(community.contains c)))).map
        (fun p => (best_hand (community ++ [p.1, p.2]), p))) with _ | m
  · exfalso
    have hnil := maxBy_eq_none_iff.mp hmax
    have hpnil : pairsOf (allCards.filter (fun c => !(community.contains c))) = [] :=
      List.map_eq_nil_iff.mp hnil
    exact pairsOf_ne_nil hclen hpnil
  · have hmem := maxBy_mem hmax
    rcases List.mem_map.mp hmem with ⟨pq, hpq_mem, hpe⟩
    obtain ⟨a, b⟩ := pq
    simp only [] at hpe
    rcases hbh_some a b with ⟨h0, hh0⟩
    have hppc := mem_pairsOf hpq_mem
    have hane : a ∉ community := (hmem_comp a).mp hppc.1
    have hbne : b ∉ community := (hmem_comp b).mp hppc.2
    have hab : a ≠ b := pairsOf_ne hcomp_nd hpq_mem
    have hge := maxBy_ge candKey hkey_cand hmax
    have hkm : candKey m = (handKey h0 + 1) * 2704 + (cardKey a * 52 + cardKey b) := by
      rw [← hpe, hh0]
      rfl
    refine ⟨h0, a, b, ?_, hane, hbne, hab, hh0, ?_⟩
    · unfold find_nuts
      rw [if_neg (by omega), hmax, ← hpe, hh0]
    · intro p q h2 hpn hqn hpq2 hbh2
      have hpc : p ∈ allCards.filter (fun c => !(community.contains c)) :=
        (hmem_comp p).mpr hpn
      have hqc : q ∈ allCards.filter (fun c => !(community.contains c)) :=
        (hmem_comp q).mpr hqn
      rcases pairsOf_complete hpc hqc hpq2 with hin | hin
      · have hcand_mem : (best_hand (community ++ [p, q]), (p, q)) ∈
            (pairsOf (allCards.filter (fun c => !(community.contains c)))).map
              (fun p => (best_hand (community ++ [p.1, p.2]), p)) :=
          List.mem_map.mpr ⟨(p, q), hin, rfl⟩
        have hk := hge _ hcand_mem
        rw [hbh2] at hk
        have hk2 : (handKey h2 + 1) * 2704 + (cardKey p * 52 + cardKey q) ≤
            (handKey h0 + 1) * 2704 + (cardKey a * 52 + cardKey b) := by
          calc (handKey h2 + 1) * 2704 + (cardKey p * 52 + cardKey q)
              = candKey (some h2, (p, q)) := rfl
            _ ≤ candKey m := hk
            _ = _ := hkm
        have hb1 := cardPairKey_lt p q
        have hb2 := cardPairKey_lt a b
        have hfinal : handKey h2 ≤ handKey h0 := by omega
        rw [handCmp_key (best_hand_length hh0) (best_hand_length hbh2)]
        exact natCmp_ne_lt_iff.mpr hfinal
      · rcases hbh_some q p with ⟨h3, hh3⟩
        have hcand_mem : (best_hand (community ++ [q, p]), (q, p)) ∈
            (pairsOf (allCards.filter (fun c => !(community.contains c)))).map
              (fun p => (best_hand (community ++ [p.1, p.2]), p)) :=
          List.mem_map.mpr ⟨(q, p), hin, rfl⟩
        have hk := hge _ hcand_mem
        rw [hh3] at hk
        have hk2 : (handKey h3 + 1) * 2704 + (cardKey q * 52 + cardKey p) ≤
            (handKey h0 + 1) * 2704 + (cardKey a * 52 + cardKey b) := by
          calc (handKey h3 + 1) * 2704 + (cardKey q * 52 + cardKey p)
              = candKey (some h3, (q, p)) := rfl
            _ ≤ candKey m := hk
            _ = _ := hkm
        rcases best_hand_mem hbh2 with ⟨sub2, hsub2, hlen2, hh2eq⟩
        have hperm12 : (community ++ [p, q]).Perm (community ++ [q, p]) :=
          List.Perm.append_left community (List.Perm.swap q p [])
        have hsp2 : List.Subperm sub2 (community ++ [q, p]) :=
          (hsub2.subperm).trans hperm12.subperm
        have hk23 : handKey (mkHand sub2) ≤ handKey h3 := best_hand_ge hh3 sub2 hsp2 hlen2
        have hb1 := cardPairKey_lt q p
        have hb2 := cardPairKey_lt a b
        have h30 : handKey h3 ≤ handKey h0 := by omega
        rw [handCmp_key (best_hand_length hh0) (best_hand_length hbh2)]
        refine natCmp_ne_lt_iff.mpr ?_
        rw [hh2eq]
        exact Nat.le_trans hk23 h30

/-- Witness for the amended C6: a concrete 3-card flop. -/
theorem c6_find_nuts_amended_witness :
    ∃ h a b, find_nuts [cardOf Rank.Two Suit.Hearts, cardOf Rank.Seven Suit.Clubs,
        cardOf Rank.King Suit.Diamonds] = some (some h, (a, b)) ∧
      a ∉ [cardOf Rank.Two Suit.Hearts, cardOf Rank.Seven Suit.Clubs,
        cardOf Rank.King Suit.Diamonds] ∧
      b ∉ [cardOf Rank.Two Suit.Hearts, cardOf Rank.Seven Suit.Clubs,
        cardOf Rank.King Suit.Diamonds] ∧ a ≠ b ∧
      best_hand ([cardOf Rank.Two Suit.Hearts, cardOf Rank.Seven Suit.Clubs,
        cardOf Rank.King Suit.Diamonds] ++ [a, b]) = some h ∧
      ∀ p q h2, p ∉ [cardOf Rank.Two Suit.Hearts, cardOf Rank.Seven Suit.Clubs,
          cardOf Rank.King Suit.Diamonds] →
        q ∉ [cardOf Rank.Two Suit.Hearts, cardOf Rank.Seven Suit.Clubs,
          cardOf Rank.King Suit.Diamonds] → p ≠ q →
        best_hand ([cardOf Rank.Two Suit.Hearts, cardOf Rank.Seven Suit.Clubs,
          cardOf Rank.King Suit.Diamonds] ++ [p, q]) = some h2 →
        handCmp h h2 ≠ Ordering.lt :=
  c6_find_nuts_amended _ (by decide) (by decide) (by decide)
